import Mathlib

/-!
Verification development for the xlsx write-path engine (`file.go`):
a shallow embedding of the part-assembly and packaging code
(`MarshallParts`, `Write`, `AddSheet`, the drawing/anchor geometry and
the compatibility post-processing string rewrites), with theorems about
the claims of the specification.

Go strings are modelled as `List Char` (all patterns involved are ASCII,
so byte-level `strings.Replace` coincides with rune-level replacement);
Go `float64` arithmetic is modelled by `ℚ` (the properties proved are
order/termination properties preserved by exact arithmetic, and all
concrete inputs used evaluate exactly in both); Go runtime panics
(index out of range) and non-terminating loops are modelled by `Option`
results, `none` meaning "no value is returned".
-/

/-- `startsL x y`: the list `x` is a leading segment of `y`
(models Go `strings.HasPrefix`). -/
def startsL {α : Type} (x y : List α) : Prop := ∃ t, x ++ t = y

/-- `endsL x y`: the list `x` is a trailing segment of `y`
(models Go `strings.HasSuffix`). -/
def endsL {α : Type} (x y : List α) : Prop := ∃ t, t ++ x = y

/-- `insideL x y`: `x` occurs contiguously inside `y`
(models Go `strings.Contains`). -/
def insideL {α : Type} (x y : List α) : Prop := ∃ a b, a ++ x ++ b = y

theorem isPrefixOf_iff_startsL {α : Type} [DecidableEq α] :
    ∀ (x y : List α), x.isPrefixOf y = true ↔ startsL x y := by
  intro x
  induction x with
  | nil => intro y; simp [List.isPrefixOf, startsL]
  | cons a as ih =>
    intro y
    cases y with
    | nil => simp [List.isPrefixOf, startsL]
    | cons b bs =>
      simp only [List.isPrefixOf, Bool.and_eq_true, beq_iff_eq, ih bs, startsL]
      constructor
      · rintro ⟨rfl, t, rfl⟩; exact ⟨t, rfl⟩
      · rintro ⟨t, h⟩
        injection h with h1 h2
        exact ⟨h1, t, h2⟩

instance {α : Type} [DecidableEq α] (x y : List α) : Decidable (startsL x y) :=
  decidable_of_iff _ (isPrefixOf_iff_startsL x y)

theorem endsL_iff_rev {α : Type} (x y : List α) :
    endsL x y ↔ startsL x.reverse y.reverse := by
  constructor
  · rintro ⟨t, rfl⟩; exact ⟨t.reverse, by rw [← List.reverse_append]⟩
  · rintro ⟨t, h⟩
    refine ⟨t.reverse, ?_⟩
    have := congrArg List.reverse h
    simpa [List.reverse_append] using this

instance {α : Type} [DecidableEq α] (x y : List α) : Decidable (endsL x y) :=
  decidable_of_iff _ (endsL_iff_rev x y).symm

/-- Scan for a contiguous occurrence (models Go `strings.Contains`). -/
def insideB {α : Type} [DecidableEq α] (x : List α) : List α → Bool
  | [] => x.isEmpty
  | c :: t => x.isPrefixOf (c :: t) || insideB x t

theorem startsL_insideL {α : Type} {x y : List α} (h : startsL x y) : insideL x y := by
  obtain ⟨t, rfl⟩ := h; exact ⟨[], t, rfl⟩

theorem insideL_nil {α : Type} {x : List α} (h : insideL x ([] : List α)) : x = [] := by
  obtain ⟨a, b, h⟩ := h
  rcases List.append_eq_nil.mp h with ⟨h1, h2⟩
  exact (List.append_eq_nil.mp h1).2

theorem insideL_cons_iff {α : Type} {x : List α} {c : α} {t : List α} :
    insideL x (c :: t) ↔ startsL x (c :: t) ∨ insideL x t := by
  constructor
  · rintro ⟨a, b, h⟩
    cases a with
    | nil => exact Or.inl ⟨b, by simpa using h⟩
    | cons a0 as =>
      injection h with h1 h2
      exact Or.inr ⟨as, b, h2⟩
  · rintro (⟨t', h⟩ | ⟨a, b, h⟩)
    · exact ⟨[], t', by simpa using h⟩
    · exact ⟨c :: a, b, by simp [h]⟩

theorem insideB_iff_insideL {α : Type} [DecidableEq α] :
    ∀ (x y : List α), insideB x y = true ↔ insideL x y := by
  intro x y
  induction y with
  | nil =>
    simp only [insideB, List.isEmpty_iff]
    constructor
    · rintro rfl; exact ⟨[], [], rfl⟩
    · intro h; exact insideL_nil h
  | cons c t ih =>
    simp only [insideB, Bool.or_eq_true, isPrefixOf_iff_startsL, ih, insideL_cons_iff]

instance {α : Type} [DecidableEq α] (x y : List α) : Decidable (insideL x y) :=
  decidable_of_iff _ (insideB_iff_insideL x y)

theorem startsL_nil {α : Type} {x : List α} (h : startsL x ([] : List α)) : x = [] := by
  obtain ⟨t, h⟩ := h
  exact (List.append_eq_nil.mp h).1

theorem startsL_cons_cons {α : Type} {a b : α} {x y : List α} :
    startsL (a :: x) (b :: y) ↔ a = b ∧ startsL x y := by
  constructor
  · rintro ⟨t, h⟩; injection h with h1 h2; exact ⟨h1, t, h2⟩
  · rintro ⟨rfl, t, h⟩; exact ⟨t, by rw [List.cons_append, h]⟩

theorem startsL_length_le {α : Type} {x y : List α} (h : startsL x y) :
    x.length ≤ y.length := by
  obtain ⟨t, rfl⟩ := h; simp

theorem startsL_append_cases {α : Type} {x u v : List α} (h : startsL x (u ++ v)) :
    startsL x u ∨ (startsL u x ∧ startsL (x.drop u.length) v) := by
  obtain ⟨t, h⟩ := h
  by_cases hle : x.length ≤ u.length
  · left
    have hx : x = u.take x.length := by
      have h1 : (x ++ t).take x.length = x := List.take_left x t
      rw [h] at h1
      rw [List.take_append_of_le_length hle] at h1
      exact h1.symm
    refine ⟨u.drop x.length, ?_⟩
    nth_rewrite 1 [hx]
    exact List.take_append_drop _ _
  · right
    push_neg at hle
    have hle' : u.length ≤ x.length := le_of_lt hle
    have hu : u = x.take u.length := by
      have h1 : (u ++ v).take u.length = u := List.take_left u v
      rw [← h] at h1
      rw [List.take_append_of_le_length hle'] at h1
      exact h1.symm
    constructor
    · refine ⟨x.drop u.length, ?_⟩
      nth_rewrite 1 [hu]
      exact List.take_append_drop _ _
    · have hx : x = u ++ x.drop u.length := by
        conv_lhs => rw [← List.take_append_drop u.length x]
        rw [← hu]
      rw [hx, List.append_assoc] at h
      exact ⟨t, List.append_cancel_left h⟩

theorem endsL_cons {α : Type} {x : List α} {c : α} {t : List α} (h : endsL x t) :
    endsL x (c :: t) := by
  obtain ⟨a, rfl⟩ := h; exact ⟨c :: a, rfl⟩

theorem endsL_refl {α : Type} (x : List α) : endsL x x := ⟨[], rfl⟩

theorem insideL_append_cases {α : Type} {x u v : List α} (h : insideL x (u ++ v)) :
    insideL x u ∨ insideL x v ∨
      ∃ j, 0 < j ∧ j < x.length ∧ endsL (x.take j) u ∧ startsL (x.drop j) v := by
  induction u with
  | nil => exact Or.inr (Or.inl (by simpa using h))
  | cons c u' ih =>
    rcases insideL_cons_iff.mp h with hs | hi
    · rcases startsL_append_cases (u := c :: u') (v := v) hs with h1 | ⟨h2, h3⟩
      · exact Or.inl (startsL_insideL h1)
      · by_cases hlt : (c :: u').length < x.length
        · right; right
          refine ⟨(c :: u').length, by simp, hlt, ?_, h3⟩
          obtain ⟨t, ht⟩ := h2
          have hx : x.take (c :: u').length = c :: u' := by
            rw [← ht]; exact List.take_left _ _
          rw [hx]; exact endsL_refl _
        · push_neg at hlt
          have hxlen := startsL_length_le h2
          obtain ⟨t, ht⟩ := h2
          have ht0 : t = [] := by
            have hl := congrArg List.length ht
            simp only [List.length_append] at hl
            have : t.length = 0 := by omega
            exact List.length_eq_zero.mp this
          subst ht0
          simp only [List.append_nil] at ht
          exact Or.inl ⟨[], [], by simp [ht]⟩
    · rcases ih hi with h1 | h2 | ⟨j, hj0, hjx, he, hs'⟩
      · exact Or.inl (insideL_cons_iff.mpr (Or.inr h1))
      · exact Or.inr (Or.inl h2)
      · exact Or.inr (Or.inr ⟨j, hj0, hjx, endsL_cons he, hs'⟩)

/-- Number of positions at which `pat` matches inside the list (overlapping
occurrences counted); used to state "the pattern occurs at most once". -/
def countOcc {α : Type} [DecidableEq α] (pat : List α) : List α → Nat
  | [] => if pat.isPrefixOf ([] : List α) then 1 else 0
  | c :: t => (if pat.isPrefixOf (c :: t) then 1 else 0) + countOcc pat t

/-- Go `strings.Replace(s, pat, repl, 1)`: replace the first occurrence only.
All patterns used in `file.go` are nonempty, where this coincides with Go. -/
def replaceOnce {α : Type} [DecidableEq α] (pat repl : List α) : List α → List α
  | [] => []
  | c :: t =>
    if pat.isPrefixOf (c :: t) then repl ++ (c :: t).drop pat.length
    else c :: replaceOnce pat repl t

/-- Go `strings.Replace(s, pat, repl, -1)`: replace every occurrence, scanning
left to right and continuing after each inserted replacement (the replacement
text itself is not rescanned). The `pat ≠ []` guard only makes the recursion
well-founded; all patterns used in `file.go` are nonempty. -/
def replaceAll {α : Type} [DecidableEq α] (pat repl : List α) : List α → List α
  | [] => []
  | c :: t =>
    if hg : pat ≠ [] ∧ pat.isPrefixOf (c :: t) then
      repl ++ replaceAll pat repl ((c :: t).drop pat.length)
    else
      c :: replaceAll pat repl t
termination_by s => s.length
decreasing_by
  · simp only [List.length_drop, List.length_cons]
    have hp : 0 < pat.length := List.length_pos.mpr hg.1
    omega
  · simp

theorem insideL_of_endsL {α : Type} {x d y : List α} (h1 : insideL x d) (h2 : endsL d y) :
    insideL x y := by
  obtain ⟨a, b, rfl⟩ := h1
  obtain ⟨p, rfl⟩ := h2
  exact ⟨p ++ a, b, by simp [List.append_assoc]⟩

theorem endsL_drop {α : Type} (n : Nat) (l : List α) : endsL (l.drop n) l :=
  ⟨l.take n, List.take_append_drop n l⟩

theorem countOcc_tail_le {α : Type} [DecidableEq α] (pat : List α) (c : α) (t : List α) :
    countOcc pat t ≤ countOcc pat (c :: t) := by
  simp only [countOcc]
  exact Nat.le_add_left _ _

theorem countOcc_eq_zero {α : Type} [DecidableEq α] {pat : List α} (hp : pat ≠ []) :
    ∀ {y : List α}, countOcc pat y = 0 ↔ ¬ insideL pat y := by
  intro y
  induction y with
  | nil =>
    have h1 : pat.isPrefixOf ([] : List α) = false := by
      cases hpp : pat.isPrefixOf ([] : List α)
      · rfl
      · exact absurd (startsL_nil ((isPrefixOf_iff_startsL _ _).mp hpp)) hp
    simp only [countOcc, h1, Bool.false_eq_true, if_false]
    exact iff_of_true (by simp) (fun h => hp (insideL_nil h))
  | cons c t ih =>
    by_cases hpp : pat.isPrefixOf (c :: t) = true
    · have hs := (isPrefixOf_iff_startsL pat (c :: t)).mp hpp
      simp [countOcc, hpp, insideL_cons_iff, hs]
    · have hs : ¬ startsL pat (c :: t) := fun h => hpp ((isPrefixOf_iff_startsL _ _).mpr h)
      simp only [Bool.not_eq_true] at hpp
      simp [countOcc, hpp, insideL_cons_iff, ih, hs]

theorem replaceOnce_id {α : Type} [DecidableEq α] {pat repl : List α} :
    ∀ {s : List α}, ¬ insideL pat s → replaceOnce pat repl s = s := by
  intro s
  induction s with
  | nil => intro _; rfl
  | cons c t ih =>
    intro h
    rw [insideL_cons_iff] at h
    push_neg at h
    have hpp : pat.isPrefixOf (c :: t) = false := by
      cases hx : pat.isPrefixOf (c :: t)
      · rfl
      · exact absurd ((isPrefixOf_iff_startsL _ _).mp hx) h.1
    simp [replaceOnce, hpp, ih h.2]

theorem replaceAll_cons {α : Type} [DecidableEq α] (pat repl : List α) (c : α) (t : List α) :
    replaceAll pat repl (c :: t) =
      if pat ≠ [] ∧ pat.isPrefixOf (c :: t) then
        repl ++ replaceAll pat repl ((c :: t).drop pat.length)
      else c :: replaceAll pat repl t := by
  rw [replaceAll]
  by_cases h : pat ≠ [] ∧ pat.isPrefixOf (c :: t) = true
  · rw [dif_pos h, if_pos h]
  · rw [dif_neg h, if_neg h]

theorem replaceAll_nil {α : Type} [DecidableEq α] (pat repl : List α) :
    replaceAll pat repl ([] : List α) = [] := by
  rw [replaceAll]

theorem replaceAll_id {α : Type} [DecidableEq α] {pat repl : List α} :
    ∀ {s : List α}, ¬ insideL pat s → replaceAll pat repl s = s := by
  intro s
  induction s with
  | nil => intro _; exact replaceAll_nil _ _
  | cons c t ih =>
    intro h
    rw [insideL_cons_iff] at h
    push_neg at h
    have hgf : ¬ (pat ≠ [] ∧ pat.isPrefixOf (c :: t) = true) := by
      rintro ⟨-, hx⟩
      exact h.1 ((isPrefixOf_iff_startsL _ _).mp hx)
    rw [replaceAll_cons, if_neg hgf, ih h.2]

theorem auxO {α : Type} [DecidableEq α] {pat repl P : List α}
    (hmid : ∀ k, k < P.length → 0 < k →
      ¬ startsL (P.drop k) repl ∧ ¬ startsL repl (P.drop k)) :
    ∀ (s : List α) (k : Nat), k < P.length → 0 < k →
      startsL (P.drop k) (replaceOnce pat repl s) → startsL (P.drop k) s := by
  intro s
  induction s with
  | nil =>
    intro k hk _ h
    have hnil := startsL_nil h
    have hlen : P.length ≤ k := List.drop_eq_nil_iff.mp hnil
    omega
  | cons c t ih =>
    intro k hk hk0 h
    by_cases hpp : pat.isPrefixOf (c :: t) = true
    · simp only [replaceOnce] at h
      rw [if_pos hpp] at h
      rcases startsL_append_cases h with h1 | ⟨h2, -⟩
      · exact absurd h1 (hmid k hk hk0).1
      · exact absurd h2 (hmid k hk hk0).2
    · simp only [replaceOnce] at h
      rw [if_neg hpp] at h
      have hdrop : P.drop k = P.get ⟨k, hk⟩ :: P.drop (k + 1) :=
        List.drop_eq_getElem_cons hk
      rw [hdrop] at h ⊢
      rcases startsL_cons_cons.mp h with ⟨hc, hrest⟩
      by_cases hk1 : k + 1 < P.length
      · exact startsL_cons_cons.mpr ⟨hc, ih (k + 1) hk1 (by omega) hrest⟩
      · have hnil : P.drop (k + 1) = [] := List.drop_eq_nil_iff.mpr (by omega)
        rw [hnil]
        exact startsL_cons_cons.mpr ⟨hc, ⟨t, rfl⟩⟩

theorem auxA {α : Type} [DecidableEq α] {pat repl P : List α}
    (hmid : ∀ k, k < P.length → 0 < k →
      ¬ startsL (P.drop k) repl ∧ ¬ startsL repl (P.drop k)) :
    ∀ (s : List α) (k : Nat), k < P.length → 0 < k →
      startsL (P.drop k) (replaceAll pat repl s) → startsL (P.drop k) s := by
  intro s
  induction s with
  | nil =>
    intro k hk _ h
    rw [replaceAll_nil] at h
    have hnil := startsL_nil h
    have hlen : P.length ≤ k := List.drop_eq_nil_iff.mp hnil
    omega
  | cons c t ih =>
    intro k hk hk0 h
    by_cases hg : pat ≠ [] ∧ pat.isPrefixOf (c :: t) = true
    · rw [replaceAll_cons, if_pos hg] at h
      rcases startsL_append_cases h with h1 | ⟨h2, -⟩
      · exact absurd h1 (hmid k hk hk0).1
      · exact absurd h2 (hmid k hk hk0).2
    · rw [replaceAll_cons, if_neg hg] at h
      have hdrop : P.drop k = P.get ⟨k, hk⟩ :: P.drop (k + 1) :=
        List.drop_eq_getElem_cons hk
      rw [hdrop] at h ⊢
      rcases startsL_cons_cons.mp h with ⟨hc, hrest⟩
      by_cases hk1 : k + 1 < P.length
      · exact startsL_cons_cons.mpr ⟨hc, ih (k + 1) hk1 (by omega) hrest⟩
      · have hnil : P.drop (k + 1) = [] := List.drop_eq_nil_iff.mpr (by omega)
        rw [hnil]
        exact startsL_cons_cons.mpr ⟨hc, ⟨t, rfl⟩⟩

theorem replaceAll_kills {α : Type} [DecidableEq α] {pat repl : List α}
    (hp : pat ≠ [])
    (hmid : ∀ k, k < pat.length → 0 < k →
      ¬ startsL (pat.drop k) repl ∧ ¬ startsL repl (pat.drop k))
    (hsfx : ∀ j, j < pat.length → 0 < j → ¬ endsL (pat.take j) repl)
    (hnin : ¬ insideL pat repl) :
    ∀ s : List α, ¬ insideL pat (replaceAll pat repl s) := by
  have key : ∀ n (s : List α), s.length ≤ n → ¬ insideL pat (replaceAll pat repl s) := by
    intro n
    induction n with
    | zero =>
      intro s hs
      have hs0 : s = [] := List.length_eq_zero.mp (Nat.le_zero.mp hs)
      subst hs0
      rw [replaceAll_nil]
      exact fun h => hp (insideL_nil h)
    | succ n ihn =>
      intro s hs
      cases s with
      | nil =>
        rw [replaceAll_nil]
        exact fun h => hp (insideL_nil h)
      | cons c t =>
        by_cases hg : pat ≠ [] ∧ pat.isPrefixOf (c :: t) = true
        · rw [replaceAll_cons, if_pos hg]
          intro h
          rcases insideL_append_cases h with h1 | h2 | ⟨j, hj0, hjl, he, -⟩
          · exact hnin h1
          · have hlen : ((c :: t).drop pat.length).length ≤ n := by
              simp only [List.length_drop, List.length_cons]
              have hp1 : 0 < pat.length := List.length_pos.mpr hp
              simp only [List.length_cons] at hs
              omega
            exact ihn _ hlen h2
          · exact hsfx j hjl hj0 he
        · rw [replaceAll_cons, if_neg hg]
          intro h
          have hlt : t.length ≤ n := by
            simp only [List.length_cons] at hs
            omega
          rcases insideL_cons_iff.mp h with hstart | hin
          · have hppn : ¬ pat.isPrefixOf (c :: t) = true := fun hx => hg ⟨hp, hx⟩
            obtain ⟨p0, pr, hP⟩ : ∃ p0 pr, pat = p0 :: pr := by
              cases pat with
              | nil => exact absurd rfl hp
              | cons a b => exact ⟨a, b, rfl⟩
            subst hP
            rcases startsL_cons_cons.mp hstart with ⟨hc, hrest⟩
            cases pr with
            | nil =>
              exact hppn ((isPrefixOf_iff_startsL _ _).mpr ⟨t, by simp [hc]⟩)
            | cons p1 pr' =>
              have h1 : startsL ((p0 :: p1 :: pr').drop 1) t := by
                refine auxA hmid t 1 ?_ ?_ hrest
                · simp
                · omega
              exact hppn ((isPrefixOf_iff_startsL _ _).mpr
                (startsL_cons_cons.mpr ⟨hc, h1⟩))
          · exact ihn t hlt hin
  exact fun s => key s.length s le_rfl

theorem replaceOnce_kills {α : Type} [DecidableEq α] {pat repl : List α}
    (hp : pat ≠ [])
    (hmid : ∀ k, k < pat.length → 0 < k →
      ¬ startsL (pat.drop k) repl ∧ ¬ startsL repl (pat.drop k))
    (hsfx : ∀ j, j < pat.length → 0 < j → ¬ endsL (pat.take j) repl)
    (hnin : ¬ insideL pat repl) :
    ∀ s : List α, countOcc pat s ≤ 1 → ¬ insideL pat (replaceOnce pat repl s) := by
  intro s
  induction s with
  | nil =>
    intro _ h
    exact hp (insideL_nil (by simpa [replaceOnce] using h))
  | cons c t ih =>
    intro hcount
    by_cases hpp : pat.isPrefixOf (c :: t) = true
    · simp only [replaceOnce]
      rw [if_pos hpp]
      intro h
      have hct : countOcc pat t = 0 := by
        simp only [countOcc] at hcount
        rw [if_pos hpp] at hcount
        omega
      have hnt : ¬ insideL pat t := (countOcc_eq_zero hp).mp hct
      rcases insideL_append_cases h with h1 | h2 | ⟨j, hj0, hjl, he, -⟩
      · exact hnin h1
      · obtain ⟨p0, pr, hP⟩ : ∃ p0 pr, pat = p0 :: pr := by
          cases pat with
          | nil => exact absurd rfl hp
          | cons a b => exact ⟨a, b, rfl⟩
        rw [hP] at h2
        simp only [List.length_cons, List.drop_succ_cons] at h2
        rw [← hP] at h2
        exact hnt (insideL_of_endsL h2 (endsL_drop _ _))
      · exact hsfx j hjl hj0 he
    · simp only [replaceOnce]
      rw [if_neg hpp]
      intro h
      have hct : countOcc pat t ≤ 1 := le_trans (countOcc_tail_le pat c t) hcount
      rcases insideL_cons_iff.mp h with hstart | hin
      · obtain ⟨p0, pr, hP⟩ : ∃ p0 pr, pat = p0 :: pr := by
          cases pat with
          | nil => exact absurd rfl hp
          | cons a b => exact ⟨a, b, rfl⟩
        subst hP
        rcases startsL_cons_cons.mp hstart with ⟨hc, hrest⟩
        cases pr with
        | nil =>
          exact hpp ((isPrefixOf_iff_startsL _ _).mpr ⟨t, by simp [hc]⟩)
        | cons p1 pr' =>
          have h1 : startsL ((p0 :: p1 :: pr').drop 1) t := by
            refine auxO hmid t 1 ?_ ?_ hrest
            · simp
            · omega
          exact hpp ((isPrefixOf_iff_startsL _ _).mpr
            (startsL_cons_cons.mpr ⟨hc, h1⟩))
      · exact ih hct hin

theorem replaceOnce_preserves {α : Type} [DecidableEq α] {old new P : List α}
    (hP : P ≠ [])
    (hmid : ∀ k, k < P.length → 0 < k →
      ¬ startsL (P.drop k) new ∧ ¬ startsL new (P.drop k))
    (hsfx : ∀ j, j < P.length → 0 < j → ¬ endsL (P.take j) new)
    (hnin : ¬ insideL P new) :
    ∀ s : List α, ¬ insideL P s → ¬ insideL P (replaceOnce old new s) := by
  intro s
  induction s with
  | nil =>
    intro _ h
    exact hP (insideL_nil (by simpa [replaceOnce] using h))
  | cons c t ih =>
    intro h0
    have h0t : ¬ insideL P t := fun hx => h0 (insideL_cons_iff.mpr (Or.inr hx))
    by_cases hpp : old.isPrefixOf (c :: t) = true
    · simp only [replaceOnce]
      rw [if_pos hpp]
      intro h
      rcases insideL_append_cases h with h1 | h2 | ⟨j, hj0, hjl, he, -⟩
      · exact hnin h1
      · exact h0 (insideL_of_endsL h2 (endsL_drop _ _))
      · exact hsfx j hjl hj0 he
    · simp only [replaceOnce]
      rw [if_neg hpp]
      intro h
      rcases insideL_cons_iff.mp h with hstart | hin
      · obtain ⟨p0, pr, hPc⟩ : ∃ p0 pr, P = p0 :: pr := by
          cases P with
          | nil => exact absurd rfl hP
          | cons a b => exact ⟨a, b, rfl⟩
        subst hPc
        rcases startsL_cons_cons.mp hstart with ⟨hc, hrest⟩
        cases pr with
        | nil =>
          exact h0 (startsL_insideL ⟨t, by simp [hc]⟩)
        | cons p1 pr' =>
          have h1 : startsL ((p0 :: p1 :: pr').drop 1) t := by
            refine auxO hmid t 1 ?_ ?_ hrest
            · simp
            · omega
          exact h0 (startsL_insideL (startsL_cons_cons.mpr ⟨hc, h1⟩))
      · exact ih h0t hin

theorem replaceOnce_idem {α : Type} [DecidableEq α] {pat repl : List α}
    (hp : pat ≠ [])
    (hmid : ∀ k, k < pat.length → 0 < k →
      ¬ startsL (pat.drop k) repl ∧ ¬ startsL repl (pat.drop k))
    (hsfx : ∀ j, j < pat.length → 0 < j → ¬ endsL (pat.take j) repl)
    (hnin : ¬ insideL pat repl)
    (s : List α) (hc : countOcc pat s ≤ 1) :
    replaceOnce pat repl (replaceOnce pat repl s) = replaceOnce pat repl s :=
  replaceOnce_id (replaceOnce_kills hp hmid hsfx hnin s hc)

/-- The namespace-attribute pattern collapsed by `replaceRelationshipsNameSpace`
(file.go 173, first pattern of `strings.Replace`, count -1). -/
def relNsPat : List Char :=
  "xmlns:relationships=\"http://schemas.openxmlformats.org/officeDocument/2006/relationships\" relationships:id".data

/-- The replacement text of the pattern above (file.go 173). -/
def ridRepl : List Char := "r:id".data

/-- `oldXmlns` of `replaceRelationshipsNameSpace` (file.go 178). -/
def oldXmlnsWorkbook : List Char :=
  "<workbook xmlns=\"http://schemas.openxmlformats.org/spreadsheetml/2006/main\">".data

/-- `newXmlns` of `replaceRelationshipsNameSpace` (file.go 179). -/
def newXmlnsWorkbook : List Char :=
  "<workbook xmlns=\"http://schemas.openxmlformats.org/spreadsheetml/2006/main\" xmlns:r=\"http://schemas.openxmlformats.org/officeDocument/2006/relationships\">".data

/-- `oldXmlns` of `replaceWorksheetNameSpace` (file.go 185). -/
def oldXmlnsWorksheet : List Char :=
  "<worksheet xmlns=\"http://schemas.openxmlformats.org/spreadsheetml/2006/main\">".data

/-- `newXmlns` of `replaceWorksheetNameSpace` (file.go 186). -/
def newXmlnsWorksheet : List Char :=
  "<worksheet xmlns=\"http://schemas.openxmlformats.org/spreadsheetml/2006/main\" xmlns:mc=\"http://schemas.openxmlformats.org/markup-compatibility/2006\" xmlns:r=\"http://schemas.openxmlformats.org/officeDocument/2006/relationships\">".data

/-- `replaceRelationshipsNameSpace` (file.go 172-181): collapse every verbose
relationships-namespace attribute pair to `r:id`, then inject the `xmlns:r`
declaration into the workbook root element (first occurrence only). All the
patterns are ASCII, so byte-level Go replacement equals this rune-level one. -/
def replaceRelationshipsNameSpace (workbookMarshal : String) : String :=
  String.mk (replaceOnce oldXmlnsWorkbook newXmlnsWorkbook
    (replaceAll relNsPat ridRepl workbookMarshal.data))

/-- `replaceWorksheetNameSpace` (file.go 184-188): inject the `xmlns:mc` and
`xmlns:r` declarations into the worksheet root element (first occurrence). -/
def replaceWorksheetNameSpace (worksheetMarshal : String) : String :=
  String.mk (replaceOnce oldXmlnsWorksheet newXmlnsWorksheet worksheetMarshal.data)

/-- Modelled from the spec: the image kinds of §6, "a fixed small enumeration
(at least JPEG, GIF, PNG)"; the `IMAGE_TYPE_*` constants are not under src/. -/
inductive ImageType where
  | jpg
  | gif
  | png
deriving DecidableEq

/-- Modelled from the spec: the canonical file extension of each image kind
(§6; the `IMAGE_EXT_*` constants are not under src/). -/
def imageExt : ImageType → String
  | ImageType.jpg => ".jpg"
  | ImageType.gif => ".gif"
  | ImageType.png => ".png"

/-- Modelled from the spec: a Drawing's "top-left anchor cell (column index,
row index, both zero-based)" (§3); the cell-reference struct is not under
src/. Go `int` fields are modelled as `ℤ`. -/
structure CellRef where
  ColNum : Int
  RowNum : Int
deriving DecidableEq

/-- Modelled from the spec: §3 "Drawing: image payload (bytes + declared image
kind ...), top-left anchor cell, optional explicit column-span count, optional
explicit row-span count, intrinsic pixel width, intrinsic pixel height"; the
struct itself is not under src/, but its fields and their meaning are fixed by
their uses in `MarshallParts` (file.go 256-305). A span of 0 is "absent" (the
code tests `> 0`); `ImageData` is kept as the string the code stores into the
part map (`string(drawing.ImageData)`, file.go 268). -/
structure Drawing where
  ImageType : ImageType
  ImageData : String
  TopLeftCell : CellRef
  ColCount : Int
  RowCount : Int
  Width : Int
  Height : Int
deriving DecidableEq

/-- Modelled from the spec: §3 "column-width overrides (sparse, by column
index)"; the `Col` struct fields `Min`, `Max`, `Width` are used by
file.go 250-253. `Min`/`Max` are 1-based as in the code
(`for i := col.Min - 1; i < col.Max`). -/
structure Col where
  Min : Nat
  Max : Nat
  Width : ℚ
deriving DecidableEq

/-- The per-sheet data the embedded code consumes: name, the `Selected` flag
set by `AddSheet` (file.go 130), column-width overrides, max column count and
the attached drawings (§3). Rows/cells are consumed only by the external
worksheet serializer and are not needed by any claim. -/
structure Sheet where
  Name : String
  Selected : Bool
  MaxCol : Nat
  Cols : List Col
  Drawings : List Drawing
deriving DecidableEq

/-- The `File` struct (file.go 16-26): the ordered sheet slice and the
name-keyed sheet map (modelled as an association list; keys are exactly the
Go map's keys). The remaining fields (reference table, styles, theme, defined
names) belong to external collaborators. The Go `Sheet.File` back-pointer is
dropped: the embedded code never reads it. -/
structure File where
  Sheets : List Sheet
  SheetMap : List (String × Sheet)
deriving DecidableEq

/-- `NewFile` (file.go 29-36). -/
def NewFile : File := { Sheets := [], SheetMap := [] }

/-- `AddSheet` (file.go 123-135), returning the updated File together with the
result. On the duplicate-name error the File is returned unchanged: the Go
method returns before mutating the receiver. (The code's message quotes the
name with single quotes; they are omitted here.) -/
def AddSheet (f : File) (sheetName : String) : File × Except String Sheet :=
  if (f.SheetMap.lookup sheetName).isSome then
    (f, Except.error ("duplicate sheet name " ++ sheetName ++ "."))
  else
    let sheet : Sheet :=
      { Name := sheetName
        Selected := f.Sheets.isEmpty
        MaxCol := 0
        Cols := []
        Drawings := [] }
    ({ Sheets := f.Sheets ++ [sheet]
       SheetMap := (sheetName, sheet) :: f.SheetMap },
     Except.ok sheet)

/-- Build a File by successive `AddSheet` calls starting from `NewFile`;
a failed call leaves the File unchanged, as in the code. -/
def buildFile (names : List String) : File :=
  names.foldl (fun f n => (AddSheet f n).1) NewFile

/-- Modelled from the spec: the fixed geometry constants of §4.3 ("fixed
pixel-per-row-unit constant", "fixed row-unit-per-cell constant",
"pixel-per-width-unit constant" and the two output scales); the
`PixelPerUnitHeight`, `UnitHeightPerCell`, `PixelPerUnitWidth`,
`NumberPerUnitWidth` and `NumberPerUnitHeight` constants are not under src/.
They are fixed positive reals in the repository; theorems take the sign
hypotheses they need, and concrete evaluations instantiate them with 1. -/
structure AnchorConsts where
  PixelPerUnitHeight : ℚ
  UnitHeightPerCell : ℚ
  PixelPerUnitWidth : ℚ
  NumberPerUnitWidth : ℚ
  NumberPerUnitHeight : ℚ
deriving DecidableEq

/-- A concrete instantiation of the geometry constants (all 1). -/
def constsOne : AnchorConsts := ⟨1, 1, 1, 1, 1⟩

/-- The dense per-column width array (file.go 249-254): `make([]float64,
sheet.MaxCol)` zero-filled, then each `Col` override writes indices
`Min-1 .. Max-1`. (Write indices beyond `MaxCol-1` are ignored here; in Go
such an override would panic — no claim depends on that case.) -/
def makeColWidths (maxCol : Nat) (cols : List Col) : List ℚ :=
  cols.foldl
    (fun arr col =>
      arr.mapIdx (fun i w => if col.Min - 1 ≤ i ∧ i < col.Max then col.Width else w))
    (List.replicate maxCol 0)

/-- The body of the Case-B column walk, as structural recursion over the
suffix of the width array that starts at the current column index: the head
of `l` is `colWidths[i]`. An empty suffix means the loop condition indexes
past the end of the array — a Go index-out-of-range panic, `none` here. -/
def colWalkGo (npw : ℚ) : List ℚ → ℚ → Nat → Option (Nat × ℚ)
  | [], _, _ => none
  | w :: rest, targeWidth, i =>
    if w * npw ≤ targeWidth then colWalkGo npw rest (targeWidth - w * npw) (i + 1)
    else some (i, targeWidth)

/-- The Case-B column walk (file.go 280-283):
`for targeWidth >= colWidths[colIndex]*NumberPerUnitWidth { targeWidth -= colWidths[colIndex]*NumberPerUnitWidth; colIndex++ }`.
The loop condition itself indexes `colWidths[colIndex]`, so reading past the
end of the array is a Go index-out-of-range panic, modelled as `none`
(a start index beyond the array panics on the first read). -/
def colWalk (ws : List ℚ) (npw : ℚ) (targeWidth : ℚ) (colIndex : Nat) :
    Option (Nat × ℚ) :=
  if colIndex ≤ ws.length then colWalkGo npw (ws.drop colIndex) targeWidth colIndex
  else none

/-- The pixel width still available from column `i` (inclusive) to the end of
the width array, in the walk's `NumberPerUnitWidth` scale. -/
def remainingWidth (ws : List ℚ) (npw : ℚ) (i : Nat) : ℚ :=
  ((ws.drop i).map (fun w => w * npw)).sum

/-- The Case-C row walk (file.go 296-299) in closed form, `step` being
`UnitHeightPerCell*NumberPerUnitHeight`:
`for targetHeight >= step { targetHeight -= step; rowIndex++ }`.
When `targetHeight ≥ step` and `step ≤ 0` the Go loop never terminates,
modelled as `none`; `rowWalk_unfold` below shows the closed form satisfies
the loop's unfolding. -/
def rowWalk (step targetHeight : ℚ) (rowIndex : Int) : Option (Int × ℚ) :=
  if targetHeight < step then some (rowIndex, targetHeight)
  else if 0 < step then
    some (rowIndex + ⌊targetHeight / step⌋,
      targetHeight - (⌊targetHeight / step⌋ : ℚ) * step)
  else none

/-- Go's `int(x)` conversion from `float64`: truncation toward zero. -/
def trunc (q : ℚ) : Int := if 0 ≤ q then ⌊q⌋ else ⌈q⌉

/-- The Case-C width accumulation (file.go 289-291):
`for colIndex := c0; colIndex < toCol; colIndex++ { targetWidthInPixel += colWidths[colIndex] * PixelPerUnitWidth }`.
An index outside the array is a Go panic, modelled as `none`. -/
def sumWidths (ws : List ℚ) (ppw : ℚ) (lo hi : Int) : Option ℚ :=
  if hi ≤ lo then some 0
  else if 0 ≤ lo ∧ hi ≤ (ws.length : Int) then
    some ((((ws.drop lo.toNat).take (hi - lo).toNat).map (fun w => w * ppw)).sum)
  else none

/-- `targetWidthInPixel` of Case B (file.go 277): the intrinsic aspect ratio
times the target pixel height `PixelPerUnitHeight * UnitHeightPerCell *
rowCount` (file.go 276). -/
def caseBTargetWidthInPixel (c : AnchorConsts) (W H rowCount : Int) : ℚ :=
  (W : ℚ) / (H : ℚ) * (c.PixelPerUnitHeight * c.UnitHeightPerCell * (rowCount : ℚ))

/-- The resolved bottom-right corner of a two-cell anchor: the `toCol`,
`toColOff`, `toRow`, `toRowOff` variables of file.go 270. -/
structure AnchorTo where
  toCol : Int
  toColOff : Int
  toRow : Int
  toRowOff : Int
deriving DecidableEq

/-- The per-drawing geometry resolution of `MarshallParts` (file.go 270-303).
`none` models a Go run of the branch that returns no value: an
index-out-of-range panic in the column walk (Case B) or in the width
accumulation (Case C), a negative start column, and the non-finite float
arithmetic following a division by an intrinsic `Height` or `Width` of 0
(Go `float64` division by zero yields ±Inf/NaN: with `Height = 0` in Case B
the walk overruns the array, with `Width = 0` in Case C the row loop never
terminates or the truncated offset is implementation-defined). -/
def resolveAnchorTo (c : AnchorConsts) (ws : List ℚ) (d : Drawing) :
    Option AnchorTo :=
  if 0 < d.RowCount ∧ 0 < d.ColCount then
    some { toCol := d.TopLeftCell.ColNum + d.ColCount
           toColOff := 0
           toRow := d.TopLeftCell.RowNum + d.RowCount
           toRowOff := 0 }
  else if 0 < d.RowCount then
    if d.Height = 0 then none
    else
      let targetWidthInPixel := caseBTargetWidthInPixel c d.Width d.Height d.RowCount
      let targeWidth := targetWidthInPixel / c.PixelPerUnitWidth * c.NumberPerUnitWidth
      if 0 ≤ d.TopLeftCell.ColNum then
        match colWalk ws c.NumberPerUnitWidth targeWidth d.TopLeftCell.ColNum.toNat with
        | some (j, off) =>
          some { toCol := (j : Int)
                 toColOff := trunc off
                 toRow := d.TopLeftCell.RowNum + d.RowCount
                 toRowOff := 0 }
        | none => none
      else none
  else
    let toCol := d.TopLeftCell.ColNum + d.ColCount
    match sumWidths ws c.PixelPerUnitWidth d.TopLeftCell.ColNum toCol with
    | none => none
    | some targetWidthInPixel =>
      if d.Width = 0 then none
      else
        let targetHeightInPixel := (d.Height : ℚ) / (d.Width : ℚ) * targetWidthInPixel
        let targetHeight :=
          targetHeightInPixel / c.PixelPerUnitHeight * c.NumberPerUnitHeight
        match rowWalk (c.UnitHeightPerCell * c.NumberPerUnitHeight) targetHeight
            d.TopLeftCell.RowNum with
        | some (r, off) =>
          some { toCol := toCol, toColOff := 0, toRow := r, toRowOff := trunc off }
        | none => none

/-- A two-cell anchor entry as added by `AddDrawingTwoCellAnchor`
(file.go 305): the from-cell with zero offsets, the resolved to-corner, and
the relationship id of the embedded image. -/
structure TwoCellAnchor where
  fromCol : Int
  fromColOff : Int
  fromRow : Int
  fromRowOff : Int
  toCorner : AnchorTo
  embedId : String
deriving DecidableEq

/-- The structured value a part serializes. `xml.Marshal`, the xml header and
the `marshal` closure (file.go 201-210) belong to the external serializer;
each part carries the value handed to it, which is what the claims about the
part map need. -/
inductive Content where
  | sheetDoc (sheet : Sheet)
  | media (data : String)
  | drawingRels (rels : List (String × String))
  | drawingDoc (anchors : List TwoCellAnchor)
  | sheetRels (drawingTarget : String)
  | workbookDoc (sheets : List (String × String × String))
  | sstDoc
  | wbRelsDoc (rels : List (String × String))
  | typesDoc (overrides : List (String × String))
  | stylesDoc
  | template (name : String)
deriving DecidableEq

/-- Modelled from the spec: `MakeDefaultContentTypes` (not under src/)
pre-populates the package-wide manifest with overrides for the fixed
workbook-level parts (§6 lists the fixed part paths). It cannot name media
parts: their names carry the per-pass running image counter. -/
def MakeDefaultContentTypes : List (String × String) := [
  ("/docProps/app.xml",
    "application/vnd.openxmlformats-officedocument.extended-properties+xml"),
  ("/docProps/core.xml", "application/vnd.openxmlformats-package.core-properties+xml"),
  ("/xl/workbook.xml",
    "application/vnd.openxmlformats-officedocument.spreadsheetml.sheet.main+xml"),
  ("/xl/sharedStrings.xml",
    "application/vnd.openxmlformats-officedocument.spreadsheetml.sharedStrings+xml"),
  ("/xl/styles.xml",
    "application/vnd.openxmlformats-officedocument.spreadsheetml.styles+xml"),
  ("/xl/theme/theme1.xml", "application/vnd.openxmlformats-officedocument.theme+xml")]

/-- The drawing loop of `MarshallParts` (file.go 256-306): per drawing, bump
the global media counter, store the media part, resolve the anchor geometry
and register the drawing relationship. `AddDrawingRelationship` is modelled
from the spec (§4.4, not under src/): it hands out ordinal relationship ids
`rId1, rId2, ...` per owning drawing part (`loc` is that local ordinal).
Returns (media parts, drawing relationship entries, anchors, new counter). -/
def drawingLoop (c : AnchorConsts) (ws : List ℚ) :
    Nat → Nat → List Drawing →
    Option (List (String × Content) × List (String × String) ×
      List TwoCellAnchor × Nat)
  | g, _, [] => some ([], [], [], g)
  | g, loc, d :: rest =>
    let k := g + 1
    let imageName := "image" ++ toString k ++ imageExt d.ImageType
    match resolveAnchorTo c ws d with
    | none => none
    | some a =>
      match drawingLoop c ws k (loc + 1) rest with
      | none => none
      | some (ps, rels, ans, gEnd) =>
        some (("xl/media/" ++ imageName, Content.media d.ImageData) :: ps,
          ("rId" ++ toString loc, imageName) :: rels,
          { fromCol := d.TopLeftCell.ColNum, fromColOff := 0,
            fromRow := d.TopLeftCell.RowNum, fromRowOff := 0,
            toCorner := a, embedId := "rId" ++ toString loc } :: ans,
          gEnd)

/-- One sheet iteration of `MarshallParts` (file.go 222-331): the worksheet
part and its override, the workbook relationship and workbook sheet entry,
the drawing loop, the drawing relationships part, the drawing part and its
override, and the worksheet relationships part, in the code's insertion
order. Returns (parts, overrides, workbook rels, workbook sheet entries,
final media counter). -/
def sheetLoop (c : AnchorConsts) :
    Nat → Nat → List Sheet →
    Option (List (String × Content) × List (String × String) ×
      List (String × String) × List (String × String × String) × Nat)
  | _, g, [] => some ([], [], [], [], g)
  | sheetIndex, g, sheet :: rest =>
    let sheetPath := "worksheets/sheet" ++ toString sheetIndex ++ ".xml"
    let partName := "xl/" ++ sheetPath
    let rId := "rId" ++ toString sheetIndex
    let drawingXML := "drawing" ++ toString sheetIndex ++ ".xml"
    let drawingPartName := "xl/drawings/" ++ drawingXML
    let ws := makeColWidths sheet.MaxCol sheet.Cols
    match drawingLoop c ws g 1 sheet.Drawings with
    | none => none
    | some (dparts, drels, anchors, g') =>
      match sheetLoop c (sheetIndex + 1) g' rest with
      | none => none
      | some (tailParts, tailOvr, tailRels, tailWB, gEnd) =>
        some (
          ((partName, Content.sheetDoc sheet) :: dparts)
            ++ [("xl/drawings/_rels/" ++ drawingXML ++ ".rels",
                  Content.drawingRels drels),
                (drawingPartName, Content.drawingDoc anchors),
                ("xl/worksheets/_rels/sheet" ++ toString sheetIndex ++ ".xml.rels",
                  Content.sheetRels drawingXML)]
            ++ tailParts,
          ("/" ++ partName,
            "application/vnd.openxmlformats-officedocument.spreadsheetml.worksheet+xml")
            :: ("/" ++ drawingPartName,
                "application/vnd.openxmlformats-officedocument.drawing+xml")
            :: tailOvr,
          (rId, sheetPath) :: tailRels,
          (sheet.Name, toString sheetIndex, rId) :: tailWB,
          gEnd)

/-- `MarshallParts` (file.go 192-373): the part map in insertion order (keys
are pairwise distinct, so a list of pairs carries exactly the Go map's
contents) together with the final content-type override list
(`MakeDefaultContentTypes` plus the per-sheet appends). `none` models a pass
whose drawing loop panics or diverges; the error returns of the Go function
all come from the external serializer's `marshal`, which has no failure of
its own in this model. -/
def MarshallParts (c : AnchorConsts) (f : File) :
    Option (List (String × Content) × List (String × String)) :=
  match sheetLoop c 1 0 f.Sheets with
  | none => none
  | some (sheetParts, ovr, wbRels, wbSheets, _) =>
    let types := MakeDefaultContentTypes ++ ovr
    some (sheetParts ++
      [("xl/workbook.xml", Content.workbookDoc wbSheets),
       ("_rels/.rels", Content.template "TEMPLATE__RELS_DOT_RELS"),
       ("docProps/app.xml", Content.template "TEMPLATE_DOCPROPS_APP"),
       ("docProps/core.xml", Content.template "TEMPLATE_DOCPROPS_CORE"),
       ("xl/theme/theme1.xml", Content.template "TEMPLATE_XL_THEME_THEME"),
       ("xl/sharedStrings.xml", Content.sstDoc),
       ("xl/_rels/workbook.xml.rels", Content.wbRelsDoc wbRels),
       ("[Content_Types].xml", Content.typesDoc types),
       ("xl/styles.xml", Content.stylesDoc)],
      types)

/-- `Write` (file.go 103-120): the archive members in the order the
`for partName, part := range parts` loop yields them. Go does not specify a
map's iteration order (it is deliberately randomized), so `Write` is modelled
over an explicit iteration order: any permutation of the part map's keys. -/
def writeSeq (order : List String) (parts : List (String × Content)) :
    List (String × Content) :=
  order.filterMap (fun k => (parts.lookup k).map (fun v => (k, v)))

/-- `order` is a possible Go map iteration order for `parts`. -/
def validOrder (order : List String) (parts : List (String × Content)) : Prop :=
  order.Perm (parts.map Prod.fst)

instance (order : List String) (parts : List (String × Content)) :
    Decidable (validOrder order parts) :=
  inferInstanceAs (Decidable (order.Perm (parts.map Prod.fst)))

/-- A File holding one sheet with one Case-D drawing: neither span given
(`ColCount = 0`, `RowCount = 0`), positive intrinsic size. -/
def caseDFile : File :=
  ⟨[⟨"Sheet1", true, 0, [], [⟨ImageType.png, "imgdata", ⟨0, 0⟩, 0, 0, 100, 100⟩]⟩], []⟩

/-- A File holding one sheet (max column count 1, no width overrides, so the
width array is `[0]`) with one Case-B drawing (`RowCount = 1`, square
intrinsic size). -/
def caseBFile : File :=
  ⟨[⟨"Sheet1", true, 1, [], [⟨ImageType.png, "b", ⟨0, 0⟩, 0, 1, 100, 100⟩]⟩], []⟩

/-- A File holding one sheet with one Case-A drawing (both spans 1) whose
intrinsic width and height are both 0. -/
def zeroSizeFile : File :=
  ⟨[⟨"Sheet1", true, 0, [], [⟨ImageType.png, "z", ⟨0, 0⟩, 1, 1, 0, 0⟩]⟩], []⟩

/-- A File holding one sheet with one well-formed Case-A drawing. -/
def mediaFile : File :=
  ⟨[⟨"Sheet1", true, 0, [], [⟨ImageType.png, "d", ⟨0, 0⟩, 1, 1, 100, 100⟩]⟩], []⟩

/-- The part map produced for an empty File (no sheets), for concrete
evaluation. -/
def emptyFileParts : List (String × Content) :=
  ((MarshallParts constsOne NewFile).getD ([], [])).1

/-- The key list of `emptyFileParts` in insertion order. -/
def emptyFileKeys : List String := emptyFileParts.map Prod.fst

theorem colWalkGo_some_bounds {npw : ℚ} :
    ∀ (l : List ℚ) (t : ℚ) (i j : Nat) (off : ℚ),
      colWalkGo npw l t i = some (j, off) → i ≤ j ∧ j < i + l.length := by
  intro l
  induction l with
  | nil => intro t i j off h; exact Option.noConfusion h
  | cons w rest ih =>
    intro t i j off h
    simp only [colWalkGo] at h
    by_cases hle : w * npw ≤ t
    · rw [if_pos hle] at h
      have := ih _ (i + 1) j off h
      simp only [List.length_cons]
      omega
    · rw [if_neg hle] at h
      simp only [Option.some.injEq, Prod.mk.injEq] at h
      obtain ⟨rfl, -⟩ := h
      simp only [List.length_cons]
      omega

theorem colWalkGo_none_iff {npw : ℚ} (hnpw : 0 ≤ npw) :
    ∀ (l : List ℚ), (∀ w ∈ l, 0 ≤ w) → ∀ (t : ℚ), 0 ≤ t → ∀ (i : Nat),
      (colWalkGo npw l t i = none ↔ (l.map (fun w => w * npw)).sum ≤ t) := by
  intro l
  induction l with
  | nil => intro _ t ht i; simpa [colWalkGo] using ht
  | cons w rest ih =>
    intro hl t ht i
    have hw : 0 ≤ w := hl w (by simp)
    have hrest : ∀ x ∈ rest, 0 ≤ x := fun x hx => hl x (by simp [hx])
    simp only [colWalkGo, List.map_cons, List.sum_cons]
    by_cases hle : w * npw ≤ t
    · rw [if_pos hle]
      rw [ih hrest (t - w * npw) (by linarith) (i + 1)]
      constructor <;> intro <;> linarith
    · rw [if_neg hle]
      constructor
      · intro h; exact Option.noConfusion h
      · intro hcon
        exfalso
        have hsum : 0 ≤ (rest.map (fun x => x * npw)).sum := by
          apply List.sum_nonneg
          intro x hx
          simp only [List.mem_map] at hx
          obtain ⟨y, hy, rfl⟩ := hx
          exact mul_nonneg (hrest y hy) hnpw
        exact hle (by linarith)

/-- The closed-form `rowWalk` satisfies the unfolding of the Go loop
(file.go 296-299): one iteration subtracts `step` and bumps the row index. -/
theorem rowWalk_unfold (step t : ℚ) (r : Int) (hstep : 0 < step) (hge : step ≤ t) :
    rowWalk step t r = rowWalk step (t - step) (r + 1) := by
  unfold rowWalk
  rw [if_neg (by linarith : ¬ t < step), if_pos hstep]
  by_cases h2 : t - step < step
  · rw [if_pos h2]
    have hq : ⌊t / step⌋ = 1 := by
      rw [Int.floor_eq_iff]
      constructor
      · rw [le_div_iff₀ hstep]
        push_cast
        linarith
      · rw [div_lt_iff₀ hstep]
        push_cast
        linarith
    rw [hq]
    norm_num
  · rw [if_neg h2, if_pos hstep]
    have hq : ⌊t / step⌋ = ⌊(t - step) / step⌋ + 1 := by
      have hts : (t - step) / step = t / step - 1 := by
        rw [sub_div, div_self (ne_of_gt hstep)]
      rw [hts, Int.floor_sub_one]
      omega
    rw [hq]
    simp only [Option.some.injEq, Prod.mk.injEq]
    constructor
    · omega
    · push_cast
      ring

/-- Claim C4 (amended): for the Case-B column walk over the dense per-column
width array, (1) the walk strictly advances the column index on every
iteration — even when the current column's resolved width is 0 — so it
terminates; (2) whenever the walk stops normally its result column is in
bounds; but (3) the claim's unreachability part fails: the out-of-bounds read
is reachable, exactly when the remaining target width is at least the total
remaining column pixel width, in which case the walk runs off the end of the
array (a Go index-out-of-range panic, `none` here). -/
theorem colWalk_advance_bounds (ws : List ℚ) (npw t : ℚ) (i : Nat)
    (hws : ∀ w ∈ ws, 0 ≤ w) (hnpw : 0 ≤ npw) (ht : 0 ≤ t) :
    (∀ h : i < ws.length, ws.get ⟨i, h⟩ * npw ≤ t →
       colWalk ws npw t i = colWalk ws npw (t - ws.get ⟨i, h⟩ * npw) (i + 1)) ∧
    (∀ j off, colWalk ws npw t i = some (j, off) → i ≤ j ∧ j < ws.length) ∧
    (colWalk ws npw t i = none ↔ remainingWidth ws npw i ≤ t) := by
  refine ⟨?_, ?_, ?_⟩
  · intro h hle
    have hle' : ws[i] * npw ≤ t := by
      simpa [List.get_eq_getElem] using hle
    unfold colWalk
    rw [if_pos (le_of_lt h), if_pos (by omega : i + 1 ≤ ws.length),
      List.drop_eq_getElem_cons h]
    simp only [colWalkGo, if_pos hle']
    rfl
  · intro j off h
    unfold colWalk at h
    by_cases hib : i ≤ ws.length
    · rw [if_pos hib] at h
      have := colWalkGo_some_bounds (ws.drop i) t i j off h
      simp only [List.length_drop] at this
      omega
    · rw [if_neg hib] at h
      exact Option.noConfusion h
  · unfold colWalk remainingWidth
    by_cases hib : i ≤ ws.length
    · rw [if_pos hib]
      exact colWalkGo_none_iff hnpw (ws.drop i)
        (fun w hw => hws w (List.mem_of_mem_drop hw)) t ht i
    · rw [if_neg hib]
      have hdrop : ws.drop i = [] := List.drop_eq_nil_iff.mpr (by omega)
      rw [hdrop]
      simpa using ht

/-- Claim C4, witness: the amended theorem applied at a concrete instance
(one column of width 1, target width 0, start column 0). -/
theorem colWalk_advance_bounds_witness :
    (∀ h : 0 < ([(1 : ℚ)]).length, ([(1 : ℚ)]).get ⟨0, h⟩ * 1 ≤ 0 →
       colWalk [(1 : ℚ)] 1 0 0 = colWalk [(1 : ℚ)] 1 (0 - ([(1 : ℚ)]).get ⟨0, h⟩ * 1) 1) ∧
    (∀ j off, colWalk [(1 : ℚ)] 1 0 0 = some (j, off) → 0 ≤ j ∧ j < ([(1 : ℚ)]).length) ∧
    (colWalk [(1 : ℚ)] 1 0 0 = none ↔ remainingWidth [(1 : ℚ)] 1 0 ≤ 0) :=
  colWalk_advance_bounds [(1 : ℚ)] 1 0 0 (by decide) (by norm_num) le_rfl

unseal Rat.mul Rat.add Rat.sub Rat.inv in
/-- Claim C4, counterexample: with one zero-width column and positive target
width the walk reads index 1 of a length-1 array — the out-of-bounds branch
of indexing is reachable (`none`); packaging the corresponding Case-B File
reaches it (in Go, an index-out-of-range panic). -/
theorem colWalk_oob_counterexample :
    colWalk [(0 : ℚ)] 1 1 0 = none ∧ MarshallParts constsOne caseBFile = none := by
  constructor <;> decide

/-- Claim C5: for a Drawing with both explicit spans given (Case A,
file.go 271-273) and top-left cell (c0, r0), the resolved bottom-right cell
is exactly (c0 + colSpan, r0 + rowSpan) and both sub-cell offsets are 0. -/
theorem caseA_anchor (c : AnchorConsts) (ws : List ℚ) (d : Drawing)
    (hr : 0 < d.RowCount) (hc : 0 < d.ColCount) :
    resolveAnchorTo c ws d =
      some ⟨d.TopLeftCell.ColNum + d.ColCount, 0,
        d.TopLeftCell.RowNum + d.RowCount, 0⟩ := by
  unfold resolveAnchorTo
  rw [if_pos ⟨hr, hc⟩]

/-- Claim C5, witness: colSpan = 2, rowSpan = 3, top-left (0,0) resolves to
bottom-right (2,3) with zero offsets. -/
theorem caseA_anchor_witness :
    (0 : Int) < 3 ∧ (0 : Int) < 2 ∧
    resolveAnchorTo constsOne [] ⟨ImageType.png, "p", ⟨0, 0⟩, 2, 3, 100, 100⟩ =
      some ⟨2, 0, 3, 0⟩ := by
  refine ⟨by decide, by decide, ?_⟩
  rw [caseA_anchor constsOne []
    ⟨ImageType.png, "p", ⟨0, 0⟩, 2, 3, 100, 100⟩ (by decide) (by decide)]
  decide

/-- Claim C8: in Case B, with nonnegative geometry constants and positive
intrinsic width and height, the computed target pixel width (file.go 276-277)
is monotonically non-decreasing in the row-span count. -/
theorem caseB_width_monotone (c : AnchorConsts) (W H r1 r2 : Int)
    (hpph : 0 ≤ c.PixelPerUnitHeight) (huhpc : 0 ≤ c.UnitHeightPerCell)
    (hW : 0 < W) (hH : 0 < H) (hr : r1 ≤ r2) :
    caseBTargetWidthInPixel c W H r1 ≤ caseBTargetWidthInPixel c W H r2 := by
  unfold caseBTargetWidthInPixel
  have hWq : (0 : ℚ) ≤ (W : ℚ) := by exact_mod_cast le_of_lt hW
  have hHq : (0 : ℚ) ≤ (H : ℚ) := by exact_mod_cast le_of_lt hH
  have hWH : (0 : ℚ) ≤ (W : ℚ) / (H : ℚ) := div_nonneg hWq hHq
  apply mul_le_mul_of_nonneg_left _ hWH
  apply mul_le_mul_of_nonneg_left _ (mul_nonneg hpph huhpc)
  exact_mod_cast hr

/-- Claim C8, witness: the monotonicity theorem applied at intrinsic size
100 by 50 and row spans 1 ≤ 4 with unit constants. -/
theorem caseB_width_monotone_witness :
    (0 : ℚ) ≤ constsOne.PixelPerUnitHeight ∧ (0 : Int) < 100 ∧ (1 : Int) ≤ 4 ∧
    caseBTargetWidthInPixel constsOne 100 50 1 ≤ caseBTargetWidthInPixel constsOne 100 50 4 :=
  ⟨by decide, by decide, by decide,
    caseB_width_monotone constsOne 100 50 1 4 (by decide) (by decide)
      (by decide) (by decide) (by decide)⟩

unseal Rat.mul Rat.add Rat.sub Rat.inv in
/-- Claim C2, code behavior at the failing input: a Drawing with neither span
given (Case D) is not rejected — `MarshallParts` succeeds, stores the media
part, and emits a degenerate two-cell anchor whose bottom-right cell equals
the top-left cell with zero offsets (file.go 286-305 with `ColCount = 0`,
`RowCount = 0`); no model error exists on this path. -/
theorem caseD_not_rejected :
    (MarshallParts constsOne caseDFile).isSome = true ∧
    ("xl/media/image1.png", Content.media "imgdata")
      ∈ ((MarshallParts constsOne caseDFile).getD ([], [])).1 ∧
    ("xl/drawings/drawing1.xml",
        Content.drawingDoc [⟨0, 0, 0, 0, ⟨0, 0, 0, 0⟩, "rId1"⟩])
      ∈ ((MarshallParts constsOne caseDFile).getD ([], [])).1 := by
  refine ⟨by decide, by decide, by decide⟩

unseal Rat.mul Rat.add Rat.sub Rat.inv in
/-- Claim C3, code behavior at the failing input: a Drawing with intrinsic
width and height both 0 and both spans given (Case A) packages successfully —
no model error is reported and the media part is emitted into the part map.
(Case A performs no aspect-ratio division at all; in Cases B/C a zero divisor
sends the Go float arithmetic to ±Inf/NaN — a panic or non-termination,
`none` here — never an error return.) -/
theorem zeroSize_not_rejected :
    (MarshallParts constsOne zeroSizeFile).isSome = true ∧
    ("xl/media/image1.png", Content.media "z")
      ∈ ((MarshallParts constsOne zeroSizeFile).getD ([], [])).1 := by
  refine ⟨by decide, by decide⟩

unseal Rat.mul Rat.add Rat.sub Rat.inv in
/-- Claim C1, counterexample: `Write` iterates the part map with
`for partName, part := range parts`, and Go map iteration order is
unspecified (deliberately randomized); two valid iteration orders of the
same part map produce different archive member sequences, so two runs need
not write the members in the same order. -/
theorem write_order_counterexample :
    (MarshallParts constsOne NewFile).isSome = true ∧
    validOrder emptyFileKeys emptyFileParts ∧
    validOrder emptyFileKeys.reverse emptyFileParts ∧
    writeSeq emptyFileKeys emptyFileParts ≠ writeSeq emptyFileKeys.reverse emptyFileParts := by
  refine ⟨by decide, by decide, by decide, by decide⟩

/-- Claim C1 (amended): a packaging pass is deterministic up to archive member
order — `MarshallParts` is a pure function of the Document, and for any two
iteration orders of its part map the member sequences written by `Write` are
permutations of each other (the same multiset of (name, content) members);
the sequence itself follows the unspecified Go map iteration order and can
differ between runs. -/
theorem write_same_members (c : AnchorConsts) (f : File)
    (out : List (String × Content) × List (String × String))
    (o1 o2 : List String) (hm : MarshallParts c f = some out)
    (h1 : validOrder o1 out.1) (h2 : validOrder o2 out.1) :
    (writeSeq o1 out.1).Perm (writeSeq o2 out.1) := by
  unfold validOrder at h1 h2
  unfold writeSeq
  exact List.Perm.filterMap _ (h1.trans h2.symm)

unseal Rat.mul Rat.add Rat.sub Rat.inv in
/-- Claim C1, witness: the amended theorem applied to the empty File with the
insertion order and its reverse. -/
theorem write_same_members_witness :
    MarshallParts constsOne NewFile = some ((MarshallParts constsOne NewFile).getD ([], [])) ∧
    validOrder emptyFileKeys emptyFileParts ∧
    validOrder emptyFileKeys.reverse emptyFileParts ∧
    (writeSeq emptyFileKeys emptyFileParts).Perm
      (writeSeq emptyFileKeys.reverse emptyFileParts) :=
  ⟨by decide, by decide, by decide,
    write_same_members constsOne NewFile _ emptyFileKeys emptyFileKeys.reverse
      (by decide) (by decide) (by decide)⟩

theorem drawingLoop_media_rel (c : AnchorConsts) (ws : List ℚ) :
    ∀ (ds : List Drawing) (g loc : Nat) ps rels ans gE,
      drawingLoop c ws g loc ds = some (ps, rels, ans, gE) →
      ∀ key data, (key, Content.media data) ∈ ps →
        ∃ rid iname, (rid, iname) ∈ rels ∧ key = "xl/media/" ++ iname := by
  intro ds
  induction ds with
  | nil =>
    intro g loc ps rels ans gE h key data hmem
    simp only [drawingLoop, Option.some.injEq, Prod.mk.injEq] at h
    obtain ⟨rfl, rfl, rfl, rfl⟩ := h
    simp at hmem
  | cons d rest ih =>
    intro g loc ps rels ans gE h key data hmem
    simp only [drawingLoop] at h
    cases hra : resolveAnchorTo c ws d with
    | none => rw [hra] at h; exact Option.noConfusion h
    | some a =>
      rw [hra] at h
      cases hdl : drawingLoop c ws (g + 1) (loc + 1) rest with
      | none => rw [hdl] at h; exact Option.noConfusion h
      | some tup =>
        obtain ⟨ps', rels', ans', gE'⟩ := tup
        rw [hdl] at h
        simp only [Option.some.injEq, Prod.mk.injEq] at h
        obtain ⟨hps, hrels, hans, hg⟩ := h
        subst hps
        subst hrels
        rcases List.mem_cons.mp hmem with heq | hmem'
        · refine ⟨"rId" ++ toString loc,
            "image" ++ toString (g + 1) ++ imageExt d.ImageType,
            List.mem_cons_self _ _, ?_⟩
          have hfst := congrArg Prod.fst heq
          simpa using hfst
        · obtain ⟨rid, iname, hr, hk⟩ :=
            ih (g + 1) (loc + 1) ps' rels' ans' gE' hdl key data hmem'
          exact ⟨rid, iname, List.mem_cons_of_mem _ hr, hk⟩

theorem sheetLoop_props (c : AnchorConsts) :
    ∀ (ss : List Sheet) (si g : Nat) parts ovr wrels wbs gE,
      sheetLoop c si g ss = some (parts, ovr, wrels, wbs, gE) →
      (∀ key data, (key, Content.media data) ∈ parts →
         ∃ relsName rels rid iname,
           (relsName, Content.drawingRels rels) ∈ parts ∧
           (rid, iname) ∈ rels ∧ key = "xl/media/" ++ iname) ∧
      (∀ p m, (p, m) ∈ ovr →
         (∃ i : Nat, p = "/" ++ ("xl/" ++ ("worksheets/sheet" ++ toString i ++ ".xml"))) ∨
         (∃ i : Nat, p = "/" ++ ("xl/drawings/" ++ ("drawing" ++ toString i ++ ".xml")))) := by
  intro ss
  induction ss with
  | nil =>
    intro si g parts ovr wrels wbs gE h
    simp only [sheetLoop, Option.some.injEq, Prod.mk.injEq] at h
    obtain ⟨rfl, rfl, rfl, rfl, rfl⟩ := h
    constructor
    · intro key data hmem
      simp at hmem
    · intro p m hmem
      simp at hmem
  | cons sheet rest ih =>
    intro si g parts ovr wrels wbs gE h
    simp only [sheetLoop] at h
    cases hdl : drawingLoop c (makeColWidths sheet.MaxCol sheet.Cols) g 1 sheet.Drawings with
    | none => rw [hdl] at h; exact Option.noConfusion h
    | some tup1 =>
      obtain ⟨dparts, drels, anchors, g'⟩ := tup1
      rw [hdl] at h
      dsimp only at h
      cases hsl : sheetLoop c (si + 1) g' rest with
      | none => rw [hsl] at h; exact Option.noConfusion h
      | some tup2 =>
        obtain ⟨tailParts, tailOvr, tailRels, tailWB, gEnd⟩ := tup2
        rw [hsl] at h
        simp only [Option.some.injEq, Prod.mk.injEq] at h
        obtain ⟨hp, ho, hw, hwb, hg⟩ := h
        subst hp
        subst ho
        obtain ⟨ihmedia, ihovr⟩ := ih (si + 1) g' tailParts tailOvr tailRels tailWB gEnd hsl
        constructor
        · intro key data hmem
          rcases List.mem_append.mp hmem with hm1 | hm2
          · rcases List.mem_cons.mp hm1 with heq | hmem'
            · exfalso
              simp at heq
            · rcases List.mem_append.mp hmem' with hmd | hm3
              · obtain ⟨rid, iname, hr, hk⟩ :=
                  drawingLoop_media_rel c _ sheet.Drawings g 1 dparts drels anchors g'
                    hdl key data hmd
                refine ⟨"xl/drawings/_rels/" ++ ("drawing" ++ toString si ++ ".xml") ++ ".rels",
                  drels, rid, iname, ?_, hr, hk⟩
                refine List.mem_append.mpr (Or.inl (List.mem_cons_of_mem _ ?_))
                refine List.mem_append.mpr (Or.inr ?_)
                simp
              · exfalso
                simp at hm3
          · obtain ⟨rn, rels, rid, iname, hmm, hr, hk⟩ := ihmedia key data hm2
            exact ⟨rn, rels, rid, iname, List.mem_append.mpr (Or.inr hmm), hr, hk⟩
        · intro p m hmem
          rcases List.mem_cons.mp hmem with heq | hmem'
          · left
            exact ⟨si, by simpa using congrArg Prod.fst heq⟩
          · rcases List.mem_cons.mp hmem' with heq2 | hmem2
            · right
              exact ⟨si, by simpa using congrArg Prod.fst heq2⟩
            · rcases ihovr p m hmem2 with h1 | h1
              · exact Or.inl h1
              · exact Or.inr h1

/-- Claim C9 (amended): in a successfully packaged part map every media part
has a matching entry in its owning drawing part's relationship set, but the
override half of the claim does not hold — the emitted content-type override
list is exactly the fixed defaults plus one worksheet and one drawing
override per sheet; no override is appended for media parts. -/
theorem media_rels_and_overrides (c : AnchorConsts) (f : File)
    (out : List (String × Content) × List (String × String))
    (hm : MarshallParts c f = some out) :
    (∀ key data, (key, Content.media data) ∈ out.1 →
       ∃ relsName rels rid iname,
         (relsName, Content.drawingRels rels) ∈ out.1 ∧
         (rid, iname) ∈ rels ∧ key = "xl/media/" ++ iname) ∧
    (∀ p m, (p, m) ∈ out.2 →
       (p, m) ∈ MakeDefaultContentTypes ∨
       (∃ i : Nat, p = "/" ++ ("xl/" ++ ("worksheets/sheet" ++ toString i ++ ".xml"))) ∨
       (∃ i : Nat, p = "/" ++ ("xl/drawings/" ++ ("drawing" ++ toString i ++ ".xml")))) := by
  unfold MarshallParts at hm
  cases hsl : sheetLoop c 1 0 f.Sheets with
  | none => rw [hsl] at hm; exact Option.noConfusion hm
  | some tup =>
    obtain ⟨sheetParts, ovr, wrels, wbs, gE⟩ := tup
    rw [hsl] at hm
    simp only [Option.some.injEq] at hm
    subst hm
    obtain ⟨hmedia, hovr⟩ := sheetLoop_props c f.Sheets 1 0 _ _ _ _ _ hsl
    constructor
    · intro key data hmem
      rcases List.mem_append.mp hmem with hm1 | hm2
      · obtain ⟨rn, rels, rid, iname, hmm, hr, hk⟩ := hmedia key data hm1
        exact ⟨rn, rels, rid, iname, List.mem_append.mpr (Or.inl hmm), hr, hk⟩
      · exfalso
        simp at hm2
    · intro p m hmem
      rcases List.mem_append.mp hmem with hm1 | hm2
      · exact Or.inl hm1
      · rcases hovr p m hm2 with h1 | h1
        · exact Or.inr (Or.inl h1)
        · exact Or.inr (Or.inr h1)

unseal Rat.mul Rat.add Rat.sub Rat.inv in
/-- Claim C9, counterexample: a successfully packaged Document with one
drawing stores the media part, but the emitted content-type manifest holds
no override for it (overrides are appended only for worksheet and drawing
parts, file.go 229-233 and 310-314). -/
theorem media_override_counterexample :
    (MarshallParts constsOne mediaFile).isSome = true ∧
    ("xl/media/image1.png", Content.media "d")
      ∈ ((MarshallParts constsOne mediaFile).getD ([], [])).1 ∧
    "/xl/media/image1.png"
      ∉ (((MarshallParts constsOne mediaFile).getD ([], [])).2).map Prod.fst := by
  refine ⟨by decide, by decide, by decide⟩

unseal Rat.mul Rat.add Rat.sub Rat.inv in
/-- Claim C9, witness: the amended theorem applied to the one-drawing File. -/
theorem media_rels_witness :
    MarshallParts constsOne mediaFile =
      some ((MarshallParts constsOne mediaFile).getD ([], [])) ∧
    (∀ key data,
       (key, Content.media data) ∈ ((MarshallParts constsOne mediaFile).getD ([], [])).1 →
       ∃ relsName rels rid iname,
         (relsName, Content.drawingRels rels)
           ∈ ((MarshallParts constsOne mediaFile).getD ([], [])).1 ∧
         (rid, iname) ∈ rels ∧ key = "xl/media/" ++ iname) :=
  ⟨by decide, (media_rels_and_overrides constsOne mediaFile _ (by decide)).1⟩

/-- Claim C6: when the sheet map covers the sheet slice's names (true of every
File built through `NewFile`/`AddSheet`), `AddSheet` with a name already
present returns an error and leaves the File unchanged, and `AddSheet` with a
fresh name succeeds, appends the new sheet, and the new sheet's name is
unique among the resulting File's sheets. -/
theorem addSheet_dup_error_fresh_unique (f : File) (name : String)
    (hcov : ∀ s ∈ f.Sheets, ((f.SheetMap.lookup s.Name).isSome) = true) :
    (((f.SheetMap.lookup name).isSome) = true →
       (AddSheet f name).1 = f ∧ ∃ e, (AddSheet f name).2 = Except.error e) ∧
    (((f.SheetMap.lookup name).isSome) = false →
       ∃ s, (AddSheet f name).2 = Except.ok s ∧
         (AddSheet f name).1.Sheets = f.Sheets ++ [s] ∧ s.Name = name ∧
         ((AddSheet f name).1.Sheets.map Sheet.Name).count name = 1) := by
  constructor
  · intro hp
    simp only [AddSheet, if_pos hp]
    exact ⟨trivial, _, rfl⟩
  · intro hn
    have hn' : ¬ ((f.SheetMap.lookup name).isSome = true) := by simp [hn]
    simp only [AddSheet, if_neg hn']
    refine ⟨_, rfl, rfl, rfl, ?_⟩
    have hnot : name ∉ f.Sheets.map Sheet.Name := by
      intro hmem
      rcases List.mem_map.mp hmem with ⟨s, hs, hsn⟩
      have hcs := hcov s hs
      rw [hsn] at hcs
      rw [hcs] at hn
      cases hn
    rw [List.map_append, List.count_append, List.count_eq_zero.mpr hnot]
    simp

/-- Claim C6, witness: the theorem applied to the File holding one sheet
named "a": adding "a" again errors and leaves the File unchanged; adding "b"
succeeds with a unique name. -/
theorem addSheet_dup_error_fresh_unique_witness :
    (∀ s ∈ (buildFile ["a"]).Sheets,
       (((buildFile ["a"]).SheetMap.lookup s.Name).isSome) = true) ∧
    ((((buildFile ["a"]).SheetMap.lookup "a").isSome) = true →
       (AddSheet (buildFile ["a"]) "a").1 = buildFile ["a"] ∧
       ∃ e, (AddSheet (buildFile ["a"]) "a").2 = Except.error e) ∧
    ((((buildFile ["a"]).SheetMap.lookup "b").isSome) = false →
       ∃ s, (AddSheet (buildFile ["a"]) "b").2 = Except.ok s ∧
         (AddSheet (buildFile ["a"]) "b").1.Sheets = (buildFile ["a"]).Sheets ++ [s] ∧
         s.Name = "b" ∧
         ((AddSheet (buildFile ["a"]) "b").1.Sheets.map Sheet.Name).count "b" = 1) :=
  ⟨by decide,
   (addSheet_dup_error_fresh_unique (buildFile ["a"]) "a" (by decide)).1,
   (addSheet_dup_error_fresh_unique (buildFile ["a"]) "b" (by decide)).2⟩

theorem buildFile_inv (names : List String) :
    ∀ f : File,
      (f.Sheets = [] ∨
        (f.Sheets.countP (fun s => s.Selected) = 1 ∧
         ∃ s rest, f.Sheets = s :: rest ∧ s.Selected = true)) →
      ((names.foldl (fun f n => (AddSheet f n).1) f).Sheets = [] ∨
        ((names.foldl (fun f n => (AddSheet f n).1) f).Sheets.countP
            (fun s => s.Selected) = 1 ∧
         ∃ s rest, (names.foldl (fun f n => (AddSheet f n).1) f).Sheets = s :: rest ∧
           s.Selected = true)) := by
  induction names with
  | nil => intro f h; exact h
  | cons n rest ih =>
    intro f h
    simp only [List.foldl_cons]
    apply ih
    by_cases hp : ((f.SheetMap.lookup n).isSome) = true
    · simp only [AddSheet, if_pos hp]
      exact h
    · simp only [AddSheet, if_neg hp]
      rcases h with hnil | ⟨hcount, s, rest', hs, hsel⟩
      · right
        constructor
        · simp [hnil, List.countP_append, List.countP_cons]
        · exact ⟨_, [], by rw [hnil]; rfl, by simp [hnil]⟩
      · right
        constructor
        · rw [hs]
          rw [List.countP_append]
          rw [hs] at hcount
          have hselnew : ((⟨n, f.Sheets.isEmpty, 0, [], []⟩ : Sheet).Selected) = false := by
            simp [hs]
          rw [List.countP_cons] at hcount
          simp only [List.countP_cons, List.countP_nil, hselnew]
          simpa using hcount
        · refine ⟨s, rest' ++ [⟨n, f.Sheets.isEmpty, 0, [], []⟩], ?_, hsel⟩
          rw [hs]
          rfl

/-- Claim C10: `AddSheet` flags the new sheet selected exactly when the File
had no sheets before the call (file.go 130), and a File built by successive
`AddSheet` calls that holds at least one sheet has exactly one selected
sheet — the first sheet created. -/
theorem first_sheet_selected :
    (∀ (f : File) (name : String) (s : Sheet),
       (AddSheet f name).2 = Except.ok s → (s.Selected = true ↔ f.Sheets = [])) ∧
    (∀ names : List String, (buildFile names).Sheets ≠ [] →
       (buildFile names).Sheets.countP (fun s => s.Selected) = 1 ∧
       ∃ s rest, (buildFile names).Sheets = s :: rest ∧ s.Selected = true) := by
  constructor
  · intro f name s h
    by_cases hp : ((f.SheetMap.lookup name).isSome) = true
    · simp only [AddSheet, if_pos hp] at h
      exact Except.noConfusion h
    · simp only [AddSheet, if_neg hp] at h
      have hs : (⟨name, f.Sheets.isEmpty, 0, [], []⟩ : Sheet) = s := by
        injection h
      rw [← hs]
      simp [List.isEmpty_iff]
  · intro names hne
    have hinv := buildFile_inv names NewFile (Or.inl rfl)
    unfold buildFile at hne ⊢
    rcases hinv with h | h
    · exact absurd h hne
    · exact h

/-- Claim C10, witness: the first added sheet is selected, the second is not;
the built File has exactly one selected sheet, its first. -/
theorem first_sheet_selected_witness :
    ((AddSheet NewFile "a").2 = Except.ok (⟨"a", true, 0, [], []⟩ : Sheet) ∧
     ((⟨"a", true, 0, [], []⟩ : Sheet).Selected = true ↔ NewFile.Sheets = [])) ∧
    ((buildFile ["a", "b"]).Sheets ≠ [] ∧
     ((buildFile ["a", "b"]).Sheets.countP (fun s => s.Selected) = 1 ∧
      ∃ s rest, (buildFile ["a", "b"]).Sheets = s :: rest ∧ s.Selected = true)) :=
  ⟨⟨rfl, first_sheet_selected.1 NewFile "a" _ rfl⟩,
   ⟨by decide, first_sheet_selected.2 ["a", "b"] (by decide)⟩⟩

set_option maxRecDepth 8000 in
/-- Claim C7: the compatibility post-processing rewrites are idempotent on
their outputs: applying `replaceRelationshipsNameSpace` or
`replaceWorksheetNameSpace` twice equals applying it once. `w` ranges over
serialized workbook documents and `s` over serialized worksheet documents;
the hypotheses record the one property of such documents the proof needs —
the root-element open tag occurs at most once (a serialized document has a
single root element). The relationships-attribute pattern may occur any
number of times. -/
theorem postprocess_idempotent (w s : String)
    (hw : countOcc oldXmlnsWorkbook (replaceAll relNsPat ridRepl w.data) ≤ 1)
    (hs : countOcc oldXmlnsWorksheet s.data ≤ 1) :
    replaceRelationshipsNameSpace (replaceRelationshipsNameSpace w) =
      replaceRelationshipsNameSpace w ∧
    replaceWorksheetNameSpace (replaceWorksheetNameSpace s) =
      replaceWorksheetNameSpace s := by
  constructor
  · unfold replaceRelationshipsNameSpace
    show String.mk (replaceOnce oldXmlnsWorkbook newXmlnsWorkbook
        (replaceAll relNsPat ridRepl
          (replaceOnce oldXmlnsWorkbook newXmlnsWorkbook
            (replaceAll relNsPat ridRepl w.data)))) = _
    have hPu : ¬ insideL relNsPat (replaceAll relNsPat ridRepl w.data) :=
      replaceAll_kills (by decide) (by decide) (by decide) (by decide) w.data
    have hPt : ¬ insideL relNsPat (replaceOnce oldXmlnsWorkbook newXmlnsWorkbook
        (replaceAll relNsPat ridRepl w.data)) :=
      replaceOnce_preserves (by decide) (by decide) (by decide) (by decide) _ hPu
    rw [replaceAll_id hPt]
    have hkill : ¬ insideL oldXmlnsWorkbook (replaceOnce oldXmlnsWorkbook newXmlnsWorkbook
        (replaceAll relNsPat ridRepl w.data)) :=
      replaceOnce_kills (by decide) (by decide) (by decide) (by decide) _ hw
    rw [replaceOnce_id hkill]
  · unfold replaceWorksheetNameSpace
    show String.mk (replaceOnce oldXmlnsWorksheet newXmlnsWorksheet
        (replaceOnce oldXmlnsWorksheet newXmlnsWorksheet s.data)) = _
    have hkill : ¬ insideL oldXmlnsWorksheet
        (replaceOnce oldXmlnsWorksheet newXmlnsWorksheet s.data) :=
      replaceOnce_kills (by decide) (by decide) (by decide) (by decide) _ hs
    rw [replaceOnce_id hkill]

set_option maxRecDepth 8000 in
/-- Claim C7, witness: idempotence applied to the concrete root-element open
tags themselves (each contains its root pattern exactly once). -/
theorem postprocess_idempotent_witness :
    countOcc oldXmlnsWorkbook
        (replaceAll relNsPat ridRepl (String.mk oldXmlnsWorkbook).data) ≤ 1 ∧
    countOcc oldXmlnsWorksheet (String.mk oldXmlnsWorksheet).data ≤ 1 ∧
    (replaceRelationshipsNameSpace
        (replaceRelationshipsNameSpace (String.mk oldXmlnsWorkbook)) =
       replaceRelationshipsNameSpace (String.mk oldXmlnsWorkbook) ∧
     replaceWorksheetNameSpace
        (replaceWorksheetNameSpace (String.mk oldXmlnsWorksheet)) =
       replaceWorksheetNameSpace (String.mk oldXmlnsWorksheet)) := by
  have hid : replaceAll relNsPat ridRepl (String.mk oldXmlnsWorkbook).data =
      oldXmlnsWorkbook := by
    apply replaceAll_id
    decide
  refine ⟨?_, by decide, postprocess_idempotent _ _ ?_ (by decide)⟩
  · rw [hid]
    decide
  · rw [hid]
    decide
